import Mathlib

/-!
# Nchoosek.c : a table of binomial coefficients

A shallow embedding of `Nchoosek.c` and the properties of its four functions
(`choose`, `init_nCk`, `retrieve_nCk`, `destroy_nCk`) and of `main`.

Conventions of the embedding

* `unsigned int` is 32 bits, `unsigned long` is 64 bits, `int` is 32 bits
  (the LP64 data model).  Machine integers are natural numbers; every
  operation that can wrap carries its modulus explicitly.
* The program state is passed explicitly: a heap of `malloc`ed blocks, the
  sequence of blocks handed to `free`, and the text written to the standard
  output and to the error channel.
* A function whose execution has undefined behaviour (a read or write outside a
  live block, a read of a cell never written, a release of a block that is not
  live, a signed counter incremented past `INT_MAX`) returns `none`.
* `malloc` always succeeds: memory is unbounded.
-/

namespace Nchoosek

/-! ## Machine integers -/

/-- The modulus of `unsigned int` arithmetic, `2^32`. -/
def UINT_MOD : Nat := 4294967296

/-- The modulus of `unsigned long` arithmetic, `2^64`. -/
def ULONG_MOD : Nat := 18446744073709551616

/-- The largest value of `int`, `2^31 - 1`. -/
def INT_MAX : Nat := 2147483647

/-! ## `choose` (lines 4-9) -/

/-- The function `choose` of the source: `1` when `k == 0`, otherwise
`(n * choose(n-1, k-1)) / k`.  The subtraction `n-1` is taken on
`unsigned int` (it wraps to `2^32 - 1` at `n = 0`); the product is taken on
`unsigned long` (it wraps modulo `2^64`); the division is the integer division
of the wrapped product.  The second argument of the pattern is `k - 1`. -/
def choose : Nat → Nat → Nat
  | _, 0 => 1
  | n, k + 1 => (n * choose ((n + (UINT_MOD - 1)) % UINT_MOD) k) % ULONG_MOD / (k + 1)

/-! ## Program state -/

/-- The state a run of the program threads through its calls.  A pointer is a
natural number: `0` is the null pointer, `b + 1` names block `b` of the heap.

* `heap`: one entry per `malloc` call, in call order; `none` once the block
  has been released, otherwise its cells, a cell being `none` until it is
  written;
* `freed`: the non-null pointers handed to `free`, in call order;
* `out`, `err`: the text written so far to `stdout` and `stderr`. -/
structure State where
  heap : List (Option (List (Option Nat)))
  freed : List Nat
  out : String
  err : String
deriving DecidableEq, Repr

/-- The state in which `main` starts: nothing allocated, nothing written. -/
def State.initial : State := { heap := [], freed := [], out := "", err := "" }

/-- The cells of the live block `p` points to; `none` for the null pointer, a
pointer to no block, or a released block. -/
def cells (s : State) (p : Nat) : Option (List (Option Nat)) :=
  match p with
  | 0 => none
  | b + 1 =>
    match s.heap[b]? with
    | some (some cs) => some cs
    | _ => none

/-- The library call `malloc` for a block of `size` cells: a fresh block whose
cells are indeterminate is appended to the heap. -/
def malloc (size : Nat) (s : State) : Nat × State :=
  (s.heap.length + 1, { s with heap := s.heap ++ [some (List.replicate size none)] })

/-- The read `p[j]`: defined when `p` points to a live block, `j` is inside it
and the cell has been written. -/
def load (p : Nat) (j : Nat) (s : State) : Option Nat :=
  match cells s p with
  | none => none
  | some cs =>
    match cs[j]? with
    | some (some v) => some v
    | _ => none

/-- The write `p[j] = v`: defined when `p` points to a live block and `j` is
inside it. -/
def store (p : Nat) (j : Nat) (v : Nat) (s : State) : Option State :=
  match cells s p with
  | none => none
  | some cs =>
    if j < cs.length then
      some { s with heap := s.heap.set (p - 1) (some (cs.set j (some v))) }
    else none

/-- The library call `free`: nothing happens on the null pointer; a live block
is released and the call recorded; anything else is undefined. -/
def free (p : Nat) (s : State) : Option State :=
  if p = 0 then some s
  else
    match cells s p with
    | none => none
    | some _ => some { s with heap := s.heap.set (p - 1) none, freed := s.freed ++ [p] }

/-! ## `init_nCk` (lines 11-21) -/

/-- The inner loop of `init_nCk`, `for (int j = 0; j <= n; j++) iCk[j] = choose(i, j);`,
entered at the loop test with counter `j`.  The first argument after `iCk`
bounds the number of loop tests still to run. -/
def fill_row (n i : Nat) (iCk : Nat) : Nat → Nat → State → Option State
  | 0, _, _ => none
  | fuel + 1, j, s =>
    if j ≤ n then
      match store iCk j (choose i j) s with
      | none => none
      | some s1 => if j = INT_MAX then none else fill_row n i iCk fuel (j + 1) s1
    else some s

/-- The outer loop of `init_nCk`, entered at the loop test with counter `i`:
allocate row `i` (`n+1` cells, the sum taken on `unsigned int`), fill it, store
its address in `nCk[i]`. -/
def build_rows (n : Nat) (nCk : Nat) : Nat → Nat → State → Option State
  | 0, _, _ => none
  | fuel + 1, i, s =>
    if i ≤ n then
      match fill_row n i (malloc ((n + 1) % UINT_MOD) s).1 (n + 2) 0
          (malloc ((n + 1) % UINT_MOD) s).2 with
      | none => none
      | some s1 =>
        match store nCk i (malloc ((n + 1) % UINT_MOD) s).1 s1 with
        | none => none
        | some s2 => if i = INT_MAX then none else build_rows n nCk fuel (i + 1) s2
    else some s

/-- The function `init_nCk` of the source: allocate the row collection, run the
outer loop from `i = 0`, return the row collection. -/
def init_nCk (n : Nat) (s : State) : Option (Nat × State) :=
  match build_rows n (malloc ((n + 1) % UINT_MOD) s).1 (n + 2) 0
      (malloc ((n + 1) % UINT_MOD) s).2 with
  | none => none
  | some s1 => some ((malloc ((n + 1) % UINT_MOD) s).1, s1)

/-! ## `retrieve_nCk` (lines 23-28) -/

/-- The line `retrieve_nCk` prints on the error channel for `k`. -/
def diagnostic (k : Nat) : String :=
  "Invalid k = " ++ Nat.repr k ++ "; enter k so that k <= n\n"

/-- The state after the `if (k > n) fprintf(stderr, ...)` of `retrieve_nCk`. -/
def warn (n k : Nat) (s : State) : State :=
  if k > n then { s with err := s.err ++ diagnostic k } else s

/-- The function `retrieve_nCk` of the source: the diagnostic when `k > n`,
then the read `*(nCk[n]+k)`. -/
def retrieve_nCk (nCk : Nat) (n k : Nat) (s : State) : Option (Nat × State) :=
  match load nCk n (warn n k s) with
  | none => none
  | some row =>
    match load row k (warn n k s) with
    | none => none
    | some v => some (v, warn n k s)

/-! ## `destroy_nCk` (lines 30-39) -/

/-- The loop of `destroy_nCk`, `for (int i = 0; i <= n; i++) free(nCk[i]);`,
entered at the loop test with counter `i`. -/
def free_rows (n : Nat) (nCk : Nat) : Nat → Nat → State → Option State
  | 0, _, _ => none
  | fuel + 1, i, s =>
    if i ≤ n then
      match load nCk i s with
      | none => none
      | some row =>
        match free row s with
        | none => none
        | some s1 => if i = INT_MAX then none else free_rows n nCk fuel (i + 1) s1
    else some s

/-- The function `destroy_nCk` of the source: `0` at once on the null pointer;
otherwise release every row, then the row collection, and return `0`. -/
def destroy_nCk (nCk : Nat) (n : Nat) (s : State) : Option (Int × State) :=
  if nCk = 0 then some (0, s)
  else
    match free_rows n nCk (n + 2) 0 s with
    | none => none
    | some s1 =>
      match free nCk s1 with
      | none => none
      | some s2 => some (0, s2)

/-! ## `main` (lines 41-46) -/

/-- The text `main` prints on the standard output for the value `v`. -/
def result_line (v : Nat) : String :=
  "Result for 20 choose 7 is: " ++ Nat.repr v ++ "\n"

/-- The function `main` of the source: build the table of order 20, look up
`(20, 7)`, print it, release the table, return `0`. -/
def main (s : State) : Option (Int × State) :=
  match init_nCk 20 s with
  | none => none
  | some (nCk, s1) =>
    match retrieve_nCk nCk 20 7 s1 with
    | none => none
    | some (v, s2) =>
      match destroy_nCk nCk 20 { s2 with out := s2.out ++ result_line v } with
      | none => none
      | some (_, s3) => some (0, s3)

/-! ## The shape of a built table -/

/-- Row `i` of a table of order `n` as the builder leaves it: the `n+1` cells
`choose i 0`, ..., `choose i n`, all written. -/
def row (n i : Nat) : List (Option Nat) :=
  (List.range (n + 1)).map (fun j => some (choose i j))

/-- The table property: `nCk` points to a live block of `N+1` row pointers, row
pointer `i` being the `i`-th block allocated after it and holding `row N i`. -/
def IsTable (N nCk : Nat) (s : State) : Prop :=
  ∃ ps, cells s nCk = some ps ∧ ps.length = N + 1 ∧
    ∀ i, i ≤ N → ps[i]? = some (some (nCk + 1 + i)) ∧ cells s (nCk + 1 + i) = some (row N i)

/-! ## The recursion of `choose`, instrumented -/

/-- The function `choose` run with at most `depth` nested calls, the outermost
one included: `none` when that many calls do not reach the base case.  A call
is the body of the source: the test `k == 0`, then the call on `n-1` and `k-1`,
both subtractions taken on `unsigned int`, the product on `unsigned long`. -/
def choose_bounded : Nat → Nat → Nat → Option Nat
  | 0, _, _ => none
  | depth + 1, n, k =>
    if k = 0 then some 1
    else
      match choose_bounded depth ((n + (UINT_MOD - 1)) % UINT_MOD)
          ((k + (UINT_MOD - 1)) % UINT_MOD) with
      | none => none
      | some c => some ((n * c) % ULONG_MOD / k)

/-- The products `n * choose(n-1, k-1)` that the calls of `choose(n, k)` form,
as natural numbers before the reduction modulo `2^64`, the outermost call
first.  The base case forms no product. -/
def choose_products : Nat → Nat → List Nat
  | _, 0 => []
  | n, k + 1 =>
    n * choose ((n + (UINT_MOD - 1)) % UINT_MOD) k ::
      choose_products ((n + (UINT_MOD - 1)) % UINT_MOD) k

/-! ## Lemmas on the heap -/

theorem cells_malloc_fresh (size : Nat) (s : State) :
    cells (malloc size s).2 (malloc size s).1 = some (List.replicate size none) := by
  simp [cells, malloc]

theorem cells_malloc_old (size : Nat) (s : State) (q : Nat) (hq : q ≤ s.heap.length) :
    cells (malloc size s).2 q = cells s q := by
  cases q with
  | zero => rfl
  | succ b =>
    have hb : b < s.heap.length := hq
    simp [cells, malloc, List.getElem?_append_left hb]

theorem store_eq_some (p : Nat) (j v : Nat) (s : State) (cs : List (Option Nat))
    (hc : cells s p = some cs) (hj : j < cs.length) :
    store p j v s = some { s with heap := s.heap.set (p - 1) (some (cs.set j (some v))) } := by
  simp [store, hc, hj]

theorem cells_set_same (s : State) (p : Nat) (cs cs' : List (Option Nat))
    (hc : cells s p = some cs) :
    cells { s with heap := s.heap.set (p - 1) (some cs') } p = some cs' := by
  cases p with
  | zero => simp [cells] at hc
  | succ b =>
    have hb : b < s.heap.length := by
      by_contra h
      have : s.heap[b]? = none := List.getElem?_eq_none (by omega)
      simp [cells, this] at hc
    simp [cells, List.getElem?_set, hb]

theorem cells_set_other (s : State) (p q : Nat) (x : Option (List (Option Nat)))
    (hp : p ≠ 0) (hq : q ≠ p) :
    cells { s with heap := s.heap.set (p - 1) x } q = cells s q := by
  cases q with
  | zero => rfl
  | succ b =>
    have hne : p - 1 ≠ b := by omega
    simp [cells, List.getElem?_set_ne hne]

theorem cells_ne_zero (s : State) (p : Nat) (cs : List (Option Nat))
    (hc : cells s p = some cs) : p ≠ 0 := by
  rintro rfl
  simp [cells] at hc

theorem cells_le_length (s : State) (p : Nat) (cs : List (Option Nat))
    (hc : cells s p = some cs) : p ≤ s.heap.length := by
  cases p with
  | zero => simp [cells] at hc
  | succ b =>
    by_contra h
    have : s.heap[b]? = none := List.getElem?_eq_none (by omega)
    simp [cells, this] at hc

/-! ## The loops of `init_nCk` -/

theorem fill_row_spec (n i p : Nat) (hn : n < INT_MAX) :
    ∀ (fuel j : Nat) (s : State) (cs : List (Option Nat)),
      cells s p = some cs → cs.length = n + 1 → j ≤ n + 1 → n + 2 ≤ fuel + j →
      ∃ s1 cs1, fill_row n i p fuel j s = some s1 ∧ cells s1 p = some cs1 ∧
        cs1.length = n + 1 ∧
        (∀ t, t < j → cs1[t]? = cs[t]?) ∧
        (∀ t, j ≤ t → t ≤ n → cs1[t]? = some (some (choose i t))) ∧
        (∀ q, q ≠ p → cells s1 q = cells s q) ∧
        s1.heap.length = s.heap.length ∧ s1.freed = s.freed ∧
        s1.out = s.out ∧ s1.err = s.err := by
  intro fuel
  induction fuel with
  | zero => intro j s cs _ _ hj hf; omega
  | succ fuel ih =>
    intro j s cs hc hlen hj hf
    by_cases hjn : j ≤ n
    · have hjlt : j < cs.length := by omega
      have hne : j ≠ INT_MAX := by omega
      have hp0 := cells_ne_zero s p cs hc
      obtain ⟨s1, cs1, hrun, hc1, hlen1, hlow, hhigh, hfr, hL, hF, hO, hE⟩ :=
        ih (j + 1) _ (cs.set j (some (choose i j)))
          (cells_set_same s p cs _ hc) (by simp [hlen]) (by omega) (by omega)
      refine ⟨s1, cs1, ?_, hc1, hlen1, ?_, ?_, ?_, ?_, hF, hO, hE⟩
      · simp only [fill_row, hjn, if_true, store_eq_some p j _ s cs hc hjlt, hne, if_false]
        exact hrun
      · intro t ht
        rw [hlow t (by omega), List.getElem?_set_ne (by omega)]
      · intro t hjt htn
        by_cases hEq : t = j
        · subst hEq
          rw [hlow t (by omega), List.getElem?_set_self hjlt]
        · exact hhigh t (by omega) htn
      · intro q hq
        rw [hfr q hq, cells_set_other s p q _ hp0 hq]
      · simpa using hL
    · have hEq : j = n + 1 := by omega
      refine ⟨s, cs, ?_, hc, hlen, fun _ _ => rfl, ?_, fun _ _ => rfl, rfl, rfl, rfl, rfl⟩
      · simp [fill_row, hjn]
      · intro t h1 h2; omega

theorem fill_row_fresh (n i : Nat) (hn : n < INT_MAX) (s : State) :
    ∃ s1, fill_row n i (malloc ((n + 1) % UINT_MOD) s).1 (n + 2) 0
        (malloc ((n + 1) % UINT_MOD) s).2 = some s1 ∧
      cells s1 (s.heap.length + 1) = some (row n i) ∧
      (∀ q, q ≤ s.heap.length → cells s1 q = cells s q) ∧
      s1.heap.length = s.heap.length + 1 ∧ s1.freed = s.freed ∧
      s1.out = s.out ∧ s1.err = s.err := by
  have hmod : (n + 1) % UINT_MOD = n + 1 := by
    apply Nat.mod_eq_of_lt
    simp only [INT_MAX, UINT_MOD] at *
    omega
  obtain ⟨s1, cs1, hrun, hc1, hlen1, -, hhigh, hfr, hL, hF, hO, hE⟩ :=
    fill_row_spec n i (malloc ((n + 1) % UINT_MOD) s).1 hn (n + 2) 0
      (malloc ((n + 1) % UINT_MOD) s).2 _ (cells_malloc_fresh _ s)
      (by simp [hmod]) (by omega) (by omega)
  refine ⟨s1, hrun, ?_, ?_, ?_, ?_, ?_, ?_⟩
  · have hcs : cs1 = row n i := by
      apply List.ext_getElem?
      intro t
      by_cases ht : t ≤ n
      · rw [hhigh t (by omega) ht]
        simp [row, List.getElem?_range (show t < n + 1 by omega)]
      · rw [List.getElem?_eq_none (by omega), List.getElem?_eq_none (by simp [row]; omega)]
    rw [← hcs]
    exact hc1
  · intro q hq
    rw [hfr q (by simp [malloc]; omega), cells_malloc_old _ s q hq]
  · simpa [malloc] using hL
  · simpa [malloc] using hF
  · simpa [malloc] using hO
  · simpa [malloc] using hE

theorem build_rows_spec (n nCk : Nat) (hn : n < INT_MAX) :
    ∀ (fuel i : Nat) (s : State) (ps : List (Option Nat)),
      cells s nCk = some ps → ps.length = n + 1 → i ≤ n + 1 → n + 2 ≤ fuel + i →
      ∃ s1 ps1, build_rows n nCk fuel i s = some s1 ∧ cells s1 nCk = some ps1 ∧
        ps1.length = n + 1 ∧
        (∀ t, t < i → ps1[t]? = ps[t]?) ∧
        (∀ t, i ≤ t → t ≤ n →
          ps1[t]? = some (some (s.heap.length + 1 + (t - i))) ∧
          cells s1 (s.heap.length + 1 + (t - i)) = some (row n t)) ∧
        (∀ q, q ≤ s.heap.length → q ≠ nCk → cells s1 q = cells s q) ∧
        s1.heap.length = s.heap.length + (n + 1 - i) ∧ s1.freed = s.freed ∧
        s1.out = s.out ∧ s1.err = s.err := by
  intro fuel
  induction fuel with
  | zero => intro i s ps _ _ hi hf; omega
  | succ fuel ih =>
    intro i s ps hc hlen hi hf
    have hle := cells_le_length s nCk ps hc
    have hp0 := cells_ne_zero s nCk ps hc
    by_cases hin : i ≤ n
    · have hne : i ≠ INT_MAX := by omega
      obtain ⟨s1, hfill, hrow, hold, hL1, hF1, hO1, hE1⟩ := fill_row_fresh n i hn s
      have hc1 : cells s1 nCk = some ps := by rw [hold nCk hle]; exact hc
      have hilt : i < ps.length := by omega
      have hst := store_eq_some nCk i (s.heap.length + 1) s1 ps hc1 hilt
      obtain ⟨s2, ps2, hrun, hc2, hlen2, hlow, hhigh, hfr, hL2, hF2, hO2, hE2⟩ :=
        ih (i + 1) _ (ps.set i (some (s.heap.length + 1)))
          (cells_set_same s1 nCk ps _ hc1) (by simp [hlen]) (by omega) (by omega)
      simp only [List.length_set] at hhigh hfr hL2
      rw [hL1] at hhigh hfr hL2
      refine ⟨s2, ps2, ?_, hc2, hlen2, ?_, ?_, ?_, ?_, ?_, ?_, ?_⟩
      · have hm : (malloc ((n + 1) % UINT_MOD) s).1 = s.heap.length + 1 := rfl
        rw [hm] at hfill
        simp only [build_rows, hin, if_true, hm, hfill, hst, hne, if_false]
        exact hrun
      · intro t ht
        rw [hlow t (by omega), List.getElem?_set_ne (by omega)]
      · intro t hit htn
        by_cases hEq : t = i
        · subst hEq
          refine ⟨?_, ?_⟩
          · rw [hlow t (by omega), List.getElem?_set_self hilt]
            simp
          · rw [Nat.sub_self, Nat.add_zero, hfr _ (by omega) (by omega),
              cells_set_other s1 nCk _ _ hp0 (by omega)]
            exact hrow
        · have h := hhigh t (by omega) htn
          have e : s.heap.length + 1 + 1 + (t - (i + 1)) = s.heap.length + 1 + (t - i) := by
            omega
          rw [e] at h
          exact h
      · intro q hq hqn
        rw [hfr q (by omega) hqn, cells_set_other s1 nCk q _ hp0 hqn, hold q hq]
      · rw [hL2]; omega
      · rw [hF2]; exact hF1
      · rw [hO2]; exact hO1
      · rw [hE2]; exact hE1
    · have hEq : i = n + 1 := by omega
      refine ⟨s, ps, ?_, hc, hlen, fun _ _ => rfl, ?_, fun _ _ _ => rfl, ?_, rfl, rfl, rfl⟩
      · simp [build_rows, hin]
      · intro t h1 h2; omega
      · omega

theorem init_nCk_spec (N : Nat) (hN : N < INT_MAX) (s : State) :
    ∃ s1, init_nCk N s = some (s.heap.length + 1, s1) ∧
      IsTable N (s.heap.length + 1) s1 ∧
      (∀ q, q ≤ s.heap.length → cells s1 q = cells s q) ∧
      s1.heap.length = s.heap.length + (N + 2) ∧ s1.freed = s.freed ∧
      s1.out = s.out ∧ s1.err = s.err := by
  have hmod : (N + 1) % UINT_MOD = N + 1 := by
    apply Nat.mod_eq_of_lt
    simp only [INT_MAX, UINT_MOD] at *
    omega
  obtain ⟨s1, ps1, hrun, hc1, hlen1, -, hhigh, hfr, hL, hF, hO, hE⟩ :=
    build_rows_spec N (malloc ((N + 1) % UINT_MOD) s).1 hN (N + 2) 0
      (malloc ((N + 1) % UINT_MOD) s).2 _ (cells_malloc_fresh _ s)
      (by simp [hmod]) (by omega) (by omega)
  have hm1 : (malloc ((N + 1) % UINT_MOD) s).1 = s.heap.length + 1 := rfl
  have hm2 : (malloc ((N + 1) % UINT_MOD) s).2.heap.length = s.heap.length + 1 := by
    simp [malloc]
  rw [hm1] at hrun hc1 hfr
  rw [hm2] at hhigh hfr hL
  refine ⟨s1, ?_, ⟨ps1, hc1, hlen1, ?_⟩, ?_, ?_, ?_, ?_, ?_⟩
  · simp only [init_nCk, hm1, hrun]
  · intro i hi
    simpa using hhigh i (by omega) hi
  · intro q hq
    rw [hfr q (by omega) (by omega), cells_malloc_old _ s q hq]
  · rw [hL]; omega
  · simpa [malloc] using hF
  · simpa [malloc] using hO
  · simpa [malloc] using hE

/-! ## The bound on the maximum order -/

theorem fill_row_overflow (n i p : Nat) (hn : INT_MAX ≤ n) :
    ∀ (fuel j : Nat) (s : State), j ≤ INT_MAX → fill_row n i p fuel j s = none := by
  intro fuel
  induction fuel with
  | zero => intro j s _; rfl
  | succ fuel ih =>
    intro j s hj
    have hjn : j ≤ n := by omega
    simp only [fill_row, hjn, if_true]
    cases store p j (choose i j) s with
    | none => rfl
    | some s1 =>
      by_cases hEq : j = INT_MAX
      · simp [hEq]
      · simp only [hEq, if_false]
        exact ih (j + 1) s1 (by omega)

theorem init_nCk_overflow (N : Nat) (hN : INT_MAX ≤ N) (s : State) : init_nCk N s = none := by
  have h0 : (0 : Nat) ≤ N := by omega
  simp [init_nCk, build_rows, h0,
    fill_row_overflow N 0 _ hN (N + 2) 0 _ (Nat.zero_le _)]

/-! ## `choose` without wrap-around -/

theorem pred_wrap (n : Nat) (h0 : 0 < n) (hn : n < UINT_MOD) :
    (n + (UINT_MOD - 1)) % UINT_MOD = n - 1 := by
  simp only [UINT_MOD] at *
  omega

theorem choose_succ (n k : Nat) :
    choose n (k + 1) =
      (n * choose ((n + (UINT_MOD - 1)) % UINT_MOD) k) % ULONG_MOD / (k + 1) := rfl

theorem choose_eq_of_fits :
    ∀ (k n : Nat), k ≤ n → n < UINT_MOD → k * Nat.choose n k < ULONG_MOD →
      choose n k = Nat.choose n k := by
  intro k
  induction k with
  | zero => intro n _ _ _; simp [choose]
  | succ k ih =>
    intro n hkn hn hfit
    obtain ⟨m, rfl⟩ : ∃ m, n = m + 1 := ⟨n - 1, by omega⟩
    have hkey : (m + 1) * Nat.choose m k = Nat.choose (m + 1) (k + 1) * (k + 1) :=
      Nat.succ_mul_choose_eq m k
    have hprod : (m + 1) * Nat.choose m k < ULONG_MOD := by
      rw [hkey, Nat.mul_comm]; exact hfit
    have hle : k * Nat.choose m k ≤ (m + 1) * Nat.choose m k :=
      Nat.mul_le_mul_right _ (by omega)
    have hrec : choose m k = Nat.choose m k :=
      ih m (by omega) (by omega) (lt_of_le_of_lt hle hprod)
    rw [choose_succ, pred_wrap (m + 1) (by omega) hn, Nat.add_sub_cancel, hrec,
      Nat.mod_eq_of_lt hprod, hkey]
    exact Nat.mul_div_cancel _ (by omega)

theorem binom_le_two_pow : ∀ (n k : Nat), Nat.choose n k ≤ 2 ^ n := by
  intro n
  induction n with
  | zero => intro k; cases k <;> simp
  | succ n ih =>
    intro k
    cases k with
    | zero => simpa using Nat.one_le_two_pow
    | succ k =>
      have h1 := ih k
      have h2 := ih (k + 1)
      have h3 : Nat.choose (n + 1) (k + 1) = Nat.choose n k + Nat.choose n (k + 1) :=
        Nat.choose_succ_succ n k
      rw [h3, Nat.pow_succ]
      omega

theorem fits_of_le_20 (n k : Nat) (hk : k ≤ n) (hn : n ≤ 20) :
    k * Nat.choose n k < ULONG_MOD := by
  have h1 : Nat.choose n k ≤ 2 ^ n := binom_le_two_pow n k
  have h2 : 2 ^ n ≤ 2 ^ 20 := Nat.pow_le_pow_right (by omega) hn
  have h3 : k * Nat.choose n k ≤ 20 * 2 ^ 20 := Nat.mul_le_mul (by omega) (by omega)
  have h4 : 20 * 2 ^ 20 < ULONG_MOD := by decide
  omega

/-! ## Lookups in a built table -/

theorem cells_warn (n k : Nat) (s : State) (q : Nat) : cells (warn n k s) q = cells s q := by
  unfold warn
  split <;> rfl

theorem load_warn (n k : Nat) (s : State) (p j : Nat) :
    load p j (warn n k s) = load p j s := by
  simp [load, cells_warn]

theorem IsTable.load_row {N nCk : Nat} {s : State} (h : IsTable N nCk s) (i : Nat)
    (hi : i ≤ N) : load nCk i s = some (nCk + 1 + i) := by
  obtain ⟨ps, hc, -, hrows⟩ := h
  simp [load, hc, (hrows i hi).1]

theorem IsTable.load_cell {N nCk : Nat} {s : State} (h : IsTable N nCk s) (i j : Nat)
    (hi : i ≤ N) (hj : j ≤ N) : load (nCk + 1 + i) j s = some (choose i j) := by
  obtain ⟨ps, -, -, hrows⟩ := h
  simp [load, (hrows i hi).2, row, List.getElem?_range (show j < N + 1 by omega)]

theorem IsTable.retrieve {N nCk : Nat} {s : State} (h : IsTable N nCk s) (n k : Nat)
    (hn : n ≤ N) (hk : k ≤ N) :
    retrieve_nCk nCk n k s = some (choose n k, warn n k s) := by
  simp [retrieve_nCk, load_warn, h.load_row n hn, h.load_cell n k hn hk]

theorem warn_of_le (n k : Nat) (s : State) (h : k ≤ n) : warn n k s = s := by
  simp [warn, Nat.not_lt.mpr h]


theorem diagnostic_length_pos (k : Nat) : 0 < (diagnostic k).length := by
  simp only [diagnostic, String.length_append]
  have : ("Invalid k = ").length = 12 := by decide
  omega

theorem err_warn_ne (n k : Nat) (s : State) (h : n < k) : (warn n k s).err ≠ s.err := by
  intro he
  have hl := congrArg String.length he
  have hp := diagnostic_length_pos k
  simp only [warn, h, if_true, String.length_append] at hl
  omega

/-! ## The claims -/

/-- C1: for every `n` and `k` with `0 ≤ k ≤ n ≤ 20`, the entry `(n, k)` that
`retrieve_nCk` reads from the table built by `init_nCk(20)` is the exact
binomial coefficient `n! / (k! (n-k)!)`, and the lookup emits nothing. -/
theorem table20_exact (s : State) (n k : Nat) (hk : k ≤ n) (hn : n ≤ 20) :
    ∃ nCk s1, init_nCk 20 s = some (nCk, s1) ∧
      retrieve_nCk nCk n k s1 =
        some (n.factorial / (k.factorial * (n - k).factorial), s1) := by
  obtain ⟨s1, hinit, htab, -⟩ := init_nCk_spec 20 (by decide) s
  refine ⟨_, s1, hinit, ?_⟩
  have hn32 : n < UINT_MOD := by simp only [UINT_MOD]; omega
  rw [htab.retrieve n k hn (by omega), warn_of_le n k s1 hk,
    choose_eq_of_fits k n hk hn32 (fits_of_le_20 n k hk hn),
    Nat.choose_eq_factorial_div_factorial hk]

theorem table20_exact_witness :
    7 ≤ 20 ∧ 20 ≤ 20 ∧ ∃ nCk s1, init_nCk 20 State.initial = some (nCk, s1) ∧
      retrieve_nCk nCk 20 7 s1 =
        some (Nat.factorial 20 / (Nat.factorial 7 * Nat.factorial (20 - 7)), s1) :=
  ⟨by decide, by decide, table20_exact State.initial 20 7 (by decide) (by decide)⟩

set_option maxRecDepth 100000 in
/-- C2: the default run.  On the table `init_nCk(20)` builds from the initial
state, `retrieve_nCk(nCk, 20, 7)` returns `77520` and leaves the state as it
was (no diagnostic); `main` returns exit code `0`, having written exactly the
line `Result for 20 choose 7 is: 77520` to the standard output, nothing to the
error channel, and having released the 22 blocks it allocated. -/
theorem main_default :
    (∃ nCk s1, init_nCk 20 State.initial = some (nCk, s1) ∧
      retrieve_nCk nCk 20 7 s1 = some (77520, s1)) ∧
    main State.initial =
      some (0, { heap := List.replicate 22 none,
                 freed := List.range' 2 21 ++ [1],
                 out := "Result for 20 choose 7 is: 77520\n",
                 err := "" }) := by
  refine ⟨?_, by decide⟩
  obtain ⟨s1, hinit, htab, -⟩ := init_nCk_spec 20 (by decide) State.initial
  refine ⟨_, s1, hinit, ?_⟩
  rw [htab.retrieve 20 7 (by omega) (by omega), warn_of_le 20 7 s1 (by omega)]
  have h : choose 20 7 = 77520 := by decide
  rw [h]


/-- C3: for every maximum order `N` with `N + 1` representable in the loop
counters (`N + 1 ≤ INT_MAX`), `init_nCk(N)` returns a row collection of exactly
`N+1` row pointers, each pointing to a row of exactly `N+1` cells, and the cell
at row `i`, column `j` holds `choose(i, j)` for every `i` and `j` in `[0, N]`
(the full square); `N + 2` blocks are allocated in all. -/
theorem init_nCk_full_square (N : Nat) (s : State) (hN : N + 1 ≤ INT_MAX) :
    ∃ nCk s1, init_nCk N s = some (nCk, s1) ∧
      s1.heap.length = s.heap.length + (N + 2) ∧
      ∃ ps, cells s1 nCk = some ps ∧ ps.length = N + 1 ∧
        ∀ i, i ≤ N → ∃ r cs, ps[i]? = some (some r) ∧ cells s1 r = some cs ∧
          cs.length = N + 1 ∧ ∀ j, j ≤ N → cs[j]? = some (some (choose i j)) := by
  obtain ⟨s1, hinit, ⟨ps, hc, hlen, hrows⟩, -, hL, -⟩ := init_nCk_spec N (by omega) s
  refine ⟨_, s1, hinit, hL, ps, hc, hlen, ?_⟩
  intro i hi
  refine ⟨_, row N i, (hrows i hi).1, (hrows i hi).2, by simp [row], ?_⟩
  intro j hj
  simp [row, List.getElem?_range (show j < N + 1 by omega)]

theorem init_nCk_full_square_witness :
    3 + 1 ≤ INT_MAX ∧
    ∃ nCk s1, init_nCk 3 State.initial = some (nCk, s1) ∧
      s1.heap.length = State.initial.heap.length + (3 + 2) ∧
      ∃ ps, cells s1 nCk = some ps ∧ ps.length = 3 + 1 ∧
        ∀ i, i ≤ 3 → ∃ r cs, ps[i]? = some (some r) ∧ cells s1 r = some cs ∧
          cs.length = 3 + 1 ∧ ∀ j, j ≤ 3 → cs[j]? = some (some (choose i j)) :=
  ⟨by decide, init_nCk_full_square 3 State.initial (by decide)⟩

/-- C4: on the table built by `init_nCk(N)`, for every `n ≤ N` and `k ≤ N`,
`retrieve_nCk(nCk, n, k)` returns the value `v` stored at row `n`, column `k`
(which is `choose(n, k)`), whether or not `k ≤ n`; the state it leaves is the
state it found when `k ≤ n`, and when `k > n` that state with exactly the line
`Invalid k = <k>; enter k so that k <= n` appended to the error channel, so
the error channel changes if and only if `k > n`. -/
theorem retrieve_nCk_soft_check (N : Nat) (s : State) (n k : Nat) (hN : N + 1 ≤ INT_MAX)
    (hn : n ≤ N) (hk : k ≤ N) :
    ∃ nCk s1, init_nCk N s = some (nCk, s1) ∧
      ∃ r v s2, load nCk n s1 = some r ∧ load r k s1 = some v ∧ v = choose n k ∧
        retrieve_nCk nCk n k s1 = some (v, s2) ∧
        (k ≤ n → s2 = s1) ∧
        (n < k → s2 = { s1 with err := s1.err ++
          ("Invalid k = " ++ Nat.repr k ++ "; enter k so that k <= n\n") }) ∧
        (s2.err ≠ s1.err ↔ n < k) ∧
        s2.out = s1.out ∧ s2.heap = s1.heap ∧ s2.freed = s1.freed := by
  obtain ⟨s1, hinit, htab, -⟩ := init_nCk_spec N (by omega) s
  refine ⟨_, s1, hinit, _, choose n k, warn n k s1, htab.load_row n hn,
    htab.load_cell n k hn hk, rfl, htab.retrieve n k hn hk, warn_of_le n k s1, ?_, ?_, ?_, ?_, ?_⟩
  · intro h
    simp [warn, h, diagnostic]
  · constructor
    · intro hne
      by_contra hle
      exact hne (by rw [warn_of_le n k s1 (by omega)])
    · exact err_warn_ne n k s1
  · unfold warn; split <;> rfl
  · unfold warn; split <;> rfl
  · unfold warn; split <;> rfl

theorem retrieve_nCk_soft_check_witness :
    8 + 1 ≤ INT_MAX ∧ 5 ≤ 8 ∧ 8 ≤ 8 ∧
    ∃ nCk s1, init_nCk 8 State.initial = some (nCk, s1) ∧
      ∃ r v s2, load nCk 5 s1 = some r ∧ load r 8 s1 = some v ∧ v = choose 5 8 ∧
        retrieve_nCk nCk 5 8 s1 = some (v, s2) ∧
        (8 ≤ 5 → s2 = s1) ∧
        (5 < 8 → s2 = { s1 with err := s1.err ++
          ("Invalid k = " ++ Nat.repr 8 ++ "; enter k so that k <= n\n") }) ∧
        (s2.err ≠ s1.err ↔ 5 < 8) ∧
        s2.out = s1.out ∧ s2.heap = s1.heap ∧ s2.freed = s1.freed :=
  ⟨by decide, by decide, by decide,
    retrieve_nCk_soft_check 8 State.initial 5 8 (by decide) (by decide) (by decide)⟩


theorem IsTable.retrieve_valid {N nCk : Nat} {s : State} (h : IsTable N nCk s) (n k : Nat)
    (hk : k ≤ n) (hn : n ≤ N) : retrieve_nCk nCk n k s = some (choose n k, s) := by
  rw [h.retrieve n k hn (by omega), warn_of_le n k s hk]

theorem lt_uint_of_le (N n : Nat) (hN : N + 1 ≤ INT_MAX) (hn : n ≤ N) : n < UINT_MOD := by
  simp only [INT_MAX, UINT_MOD] at *
  omega

/-- C5, as stated, fails at order 63, entry `(63, 29)`: the binomial coefficient
`63! / (29! 34!) = 759510004936100355` is below `2^64`, yet the table holds
`123415381704736506`. -/
theorem entry_63_29_truncated :
    ∃ nCk s1, init_nCk 63 State.initial = some (nCk, s1) ∧
      Nat.factorial 63 / (Nat.factorial 29 * Nat.factorial (63 - 29)) < ULONG_MOD ∧
      retrieve_nCk nCk 63 29 s1 = some (123415381704736506, s1) ∧
      choose 63 29 = 123415381704736506 ∧
      123415381704736506 ≠ Nat.factorial 63 / (Nat.factorial 29 * Nat.factorial (63 - 29)) := by
  obtain ⟨s1, hinit, htab, -⟩ := init_nCk_spec 63 (by decide) State.initial
  have hv : choose 63 29 = 123415381704736506 := by decide
  refine ⟨_, s1, hinit, by decide, ?_, hv, by decide⟩
  rw [htab.retrieve_valid 63 29 (by omega) (by omega), hv]

/-- C5, amended: for every maximum order `N` (`N + 1 ≤ INT_MAX`) and every pair
`0 ≤ j ≤ i ≤ N` for which `j * C(i,j)`, the product `choose` forms before its
last division, is below `2^64`, the table entry `(i, j)` and `choose(i, j)`
equal `i! / (j! (i-j)!)`. -/
theorem entry_exact_of_product_fits (N : Nat) (s : State) (i j : Nat)
    (hN : N + 1 ≤ INT_MAX) (hj : j ≤ i) (hi : i ≤ N)
    (hfit : j * (i.factorial / (j.factorial * (i - j).factorial)) < ULONG_MOD) :
    choose i j = i.factorial / (j.factorial * (i - j).factorial) ∧
    ∃ nCk s1, init_nCk N s = some (nCk, s1) ∧
      retrieve_nCk nCk i j s1 = some (i.factorial / (j.factorial * (i - j).factorial), s1) := by
  rw [← Nat.choose_eq_factorial_div_factorial hj] at hfit ⊢
  have hc := choose_eq_of_fits j i hj (lt_uint_of_le N i hN hi) hfit
  obtain ⟨s1, hinit, htab, -⟩ := init_nCk_spec N (by omega) s
  refine ⟨hc, _, s1, hinit, ?_⟩
  rw [htab.retrieve_valid i j hj hi, hc]

theorem entry_exact_of_product_fits_witness :
    62 + 1 ≤ INT_MAX ∧ 31 ≤ 62 ∧ 62 ≤ 62 ∧
    31 * (Nat.factorial 62 / (Nat.factorial 31 * Nat.factorial (62 - 31))) < ULONG_MOD ∧
    choose 62 31 = Nat.factorial 62 / (Nat.factorial 31 * Nat.factorial (62 - 31)) ∧
    ∃ nCk s1, init_nCk 62 State.initial = some (nCk, s1) ∧
      retrieve_nCk nCk 62 31 s1 =
        some (Nat.factorial 62 / (Nat.factorial 31 * Nat.factorial (62 - 31)), s1) :=
  ⟨by decide, by decide, by decide, by decide,
    entry_exact_of_product_fits 62 State.initial 62 31 (by decide) (by decide) (by decide)
      (by decide)⟩

/-- C6, as stated, fails at `n = 63`, `k = 29`: the product `63 * choose(62, 28)`
wraps to `3579046069437358679`, which leaves remainder `5` on division by `29`. -/
theorem product_63_29_not_multiple :
    1 ≤ 29 ∧ 29 ≤ 63 ∧
    choose 63 29 = (63 * choose (63 - 1) (29 - 1)) % ULONG_MOD / 29 ∧
    (63 * choose (63 - 1) (29 - 1)) % ULONG_MOD = 3579046069437358679 ∧
    (63 * choose (63 - 1) (29 - 1)) % ULONG_MOD % 29 = 5 := by
  decide

/-- C6, amended: for every 32-bit `n` and `k` with `1 ≤ k ≤ n` whose product
`n * C(n-1, k-1)` is below `2^64`, the product `n * choose(n-1, k-1)` that
`choose` forms does not wrap, is an exact multiple of `k`, and the division by
`k` leaves remainder zero: the quotient `choose(n, k)` times `k` gives the
product back. -/
theorem product_divisible_of_fits (n k : Nat) (hk : 1 ≤ k) (hkn : k ≤ n) (hn : n < UINT_MOD)
    (hfit : n * Nat.choose (n - 1) (k - 1) < ULONG_MOD) :
    choose n k = (n * choose (n - 1) (k - 1)) % ULONG_MOD / k ∧
    (n * choose (n - 1) (k - 1)) % ULONG_MOD = n * choose (n - 1) (k - 1) ∧
    (n * choose (n - 1) (k - 1)) % ULONG_MOD % k = 0 ∧
    choose n k * k = (n * choose (n - 1) (k - 1)) % ULONG_MOD := by
  obtain ⟨m, rfl⟩ : ∃ m, n = m + 1 := ⟨n - 1, by omega⟩
  obtain ⟨c, rfl⟩ : ∃ c, k = c + 1 := ⟨k - 1, by omega⟩
  simp only [Nat.add_sub_cancel] at hfit ⊢
  have hkey : (m + 1) * Nat.choose m c = Nat.choose (m + 1) (c + 1) * (c + 1) :=
    Nat.succ_mul_choose_eq m c
  have hle : c * Nat.choose m c ≤ (m + 1) * Nat.choose m c :=
    Nat.mul_le_mul_right _ (by omega)
  have hrec : choose m c = Nat.choose m c :=
    choose_eq_of_fits c m (by omega) (by omega) (lt_of_le_of_lt hle hfit)
  have hdef : choose (m + 1) (c + 1) = ((m + 1) * choose m c) % ULONG_MOD / (c + 1) := by
    rw [choose_succ, pred_wrap (m + 1) (by omega) hn, Nat.add_sub_cancel]
  have hmod : ((m + 1) * choose m c) % ULONG_MOD = (m + 1) * choose m c := by
    rw [hrec]; exact Nat.mod_eq_of_lt hfit
  have hdvd : ((m + 1) * choose m c) % ULONG_MOD % (c + 1) = 0 := by
    rw [hmod, hrec, hkey]; exact Nat.mul_mod_left _ _
  refine ⟨hdef, hmod, hdvd, ?_⟩
  rw [hdef]
  exact Nat.div_mul_cancel (Nat.dvd_of_mod_eq_zero hdvd)

theorem product_divisible_of_fits_witness :
    1 ≤ 7 ∧ 7 ≤ 20 ∧ 20 < UINT_MOD ∧ 20 * Nat.choose (20 - 1) (7 - 1) < ULONG_MOD ∧
    (choose 20 7 = (20 * choose (20 - 1) (7 - 1)) % ULONG_MOD / 7 ∧
    (20 * choose (20 - 1) (7 - 1)) % ULONG_MOD = 20 * choose (20 - 1) (7 - 1) ∧
    (20 * choose (20 - 1) (7 - 1)) % ULONG_MOD % 7 = 0 ∧
    choose 20 7 * 7 = (20 * choose (20 - 1) (7 - 1)) % ULONG_MOD) :=
  ⟨by decide, by decide, by decide, by decide,
    product_divisible_of_fits 20 7 (by decide) (by decide) (by decide) (by decide)⟩


theorem IsTable.retrieve_outside {N nCk : Nat} {s : State} (h : IsTable N nCk s) (n k : Nat)
    (hn : n ≤ N) (hk : N < k) : retrieve_nCk nCk n k s = none := by
  obtain ⟨ps, hc, -, hrows⟩ := h
  have hcell : (row N n)[k]? = none := List.getElem?_eq_none (by simp [row]; omega)
  simp [retrieve_nCk, load, cells_warn, hc, (hrows n hn).1, (hrows n hn).2, hcell]

/-- C7, as stated, fails at order 63, row 63: the entry `(63, 28)` is
`629308289804197437` and the entry `(63, 63 - 28)` is `102258459126781676`. -/
theorem entries_63_28_asymmetric :
    ∃ nCk s1, init_nCk 63 State.initial = some (nCk, s1) ∧
      retrieve_nCk nCk 63 28 s1 = some (629308289804197437, s1) ∧
      retrieve_nCk nCk 63 (63 - 28) s1 = some (102258459126781676, s1) := by
  obtain ⟨s1, hinit, htab, -⟩ := init_nCk_spec 63 (by decide) State.initial
  have h1 : choose 63 28 = 629308289804197437 := by decide
  have h2 : choose 63 (63 - 28) = 102258459126781676 := by decide
  refine ⟨_, s1, hinit, ?_, ?_⟩
  · rw [htab.retrieve_valid 63 28 (by omega) (by omega), h1]
  · rw [htab.retrieve_valid 63 (63 - 28) (by omega) (by omega), h2]

/-- C7, amended: for every maximum order `N` (`N + 1 ≤ INT_MAX`) and every
`0 ≤ k ≤ n ≤ N` for which both `k * C(n,k)` and `(n-k) * C(n,n-k)`, the products
`choose` forms for the two entries, are below `2^64`, the table built by
`init_nCk(N)` has `entry(n, k) = entry(n, n-k)`. -/
theorem entry_symm_of_fits (N : Nat) (s : State) (n k : Nat) (hN : N + 1 ≤ INT_MAX)
    (hk : k ≤ n) (hn : n ≤ N) (hfit1 : k * Nat.choose n k < ULONG_MOD)
    (hfit2 : (n - k) * Nat.choose n (n - k) < ULONG_MOD) :
    ∃ nCk s1 v, init_nCk N s = some (nCk, s1) ∧
      retrieve_nCk nCk n k s1 = some (v, s1) ∧
      retrieve_nCk nCk n (n - k) s1 = some (v, s1) := by
  obtain ⟨s1, hinit, htab, -⟩ := init_nCk_spec N (by omega) s
  have hn32 := lt_uint_of_le N n hN hn
  refine ⟨_, s1, choose n k, hinit, htab.retrieve_valid n k hk hn, ?_⟩
  rw [htab.retrieve_valid n (n - k) (by omega) hn,
    choose_eq_of_fits (n - k) n (by omega) hn32 hfit2,
    choose_eq_of_fits k n hk hn32 hfit1, Nat.choose_symm hk]

theorem entry_symm_of_fits_witness :
    62 + 1 ≤ INT_MAX ∧ 30 ≤ 62 ∧ 62 ≤ 62 ∧ 30 * Nat.choose 62 30 < ULONG_MOD ∧
    (62 - 30) * Nat.choose 62 (62 - 30) < ULONG_MOD ∧
    ∃ nCk s1 v, init_nCk 62 State.initial = some (nCk, s1) ∧
      retrieve_nCk nCk 62 30 s1 = some (v, s1) ∧
      retrieve_nCk nCk 62 (62 - 30) s1 = some (v, s1) :=
  ⟨by decide, by decide, by decide, by decide, by decide,
    entry_symm_of_fits 62 State.initial 62 30 (by decide) (by decide) (by decide)
      (by decide) (by decide)⟩

/-- C8, as stated, fails at order 63: `entry(63, 29) = 123415381704736506`
while `entry(62, 28) + entry(62, 29) = 349615716557887465 + 409894288378212890
= 759510004936100355`, the sum not wrapping. -/
theorem pascal_63_29_broken :
    ∃ nCk s1, init_nCk 63 State.initial = some (nCk, s1) ∧
      retrieve_nCk nCk 63 29 s1 = some (123415381704736506, s1) ∧
      retrieve_nCk nCk (63 - 1) (29 - 1) s1 = some (349615716557887465, s1) ∧
      retrieve_nCk nCk (63 - 1) 29 s1 = some (409894288378212890, s1) ∧
      (349615716557887465 + 409894288378212890) % ULONG_MOD ≠ 123415381704736506 := by
  obtain ⟨s1, hinit, htab, -⟩ := init_nCk_spec 63 (by decide) State.initial
  have h1 : choose 63 29 = 123415381704736506 := by decide
  have h2 : choose (63 - 1) (29 - 1) = 349615716557887465 := by decide
  have h3 : choose (63 - 1) 29 = 409894288378212890 := by decide
  refine ⟨_, s1, hinit, ?_, ?_, ?_, by decide⟩
  · rw [htab.retrieve_valid 63 29 (by omega) (by omega), h1]
  · rw [htab.retrieve_valid (63 - 1) (29 - 1) (by omega) (by omega), h2]
  · rw [htab.retrieve_valid (63 - 1) 29 (by omega) (by omega), h3]

/-- C8, amended: for every maximum order `N` (`N + 1 ≤ INT_MAX`) and every
`0 < k < n ≤ N` for which `k * C(n,k)`, the product `choose` forms for the
entry `(n, k)`, is below `2^64`, the table built by `init_nCk(N)` has
`entry(n, k) = entry(n-1, k-1) + entry(n-1, k)`, the sum taken modulo `2^64`. -/
theorem entry_pascal_of_fits (N : Nat) (s : State) (n k : Nat) (hN : N + 1 ≤ INT_MAX)
    (hk0 : 0 < k) (hk : k < n) (hn : n ≤ N) (hfit : k * Nat.choose n k < ULONG_MOD) :
    ∃ nCk s1 a b, init_nCk N s = some (nCk, s1) ∧
      retrieve_nCk nCk (n - 1) (k - 1) s1 = some (a, s1) ∧
      retrieve_nCk nCk (n - 1) k s1 = some (b, s1) ∧
      retrieve_nCk nCk n k s1 = some ((a + b) % ULONG_MOD, s1) := by
  obtain ⟨s1, hinit, htab, -⟩ := init_nCk_spec N (by omega) s
  have hn32 := lt_uint_of_le N n hN hn
  obtain ⟨m, rfl⟩ : ∃ m, n = m + 1 := ⟨n - 1, by omega⟩
  obtain ⟨c, rfl⟩ : ∃ c, k = c + 1 := ⟨k - 1, by omega⟩
  simp only [Nat.add_sub_cancel]
  have hpas : Nat.choose (m + 1) (c + 1) = Nat.choose m c + Nat.choose m (c + 1) :=
    Nat.choose_succ_succ m c
  have hkey : (m + 1) * Nat.choose m c = Nat.choose (m + 1) (c + 1) * (c + 1) :=
    Nat.succ_mul_choose_eq m c
  have hpos : 0 < Nat.choose (m + 1) (c + 1) := Nat.choose_pos (by omega)
  have hC : Nat.choose (m + 1) (c + 1) < ULONG_MOD :=
    lt_of_le_of_lt (Nat.le_mul_of_pos_left _ (by omega)) hfit
  have hfitA : c * Nat.choose m c < ULONG_MOD := by
    have h1 : c * Nat.choose m c ≤ (m + 1) * Nat.choose m c :=
      Nat.mul_le_mul_right _ (by omega)
    rw [hkey, Nat.mul_comm (Nat.choose (m + 1) (c + 1))] at h1
    exact lt_of_le_of_lt h1 hfit
  have hfitB : (c + 1) * Nat.choose m (c + 1) < ULONG_MOD := by
    have h1 : (c + 1) * Nat.choose m (c + 1) ≤ (c + 1) * Nat.choose (m + 1) (c + 1) :=
      Nat.mul_le_mul_left _ (by omega)
    exact lt_of_le_of_lt h1 hfit
  have hA := choose_eq_of_fits c m (by omega) (by omega) hfitA
  have hB := choose_eq_of_fits (c + 1) m (by omega) (by omega) hfitB
  have hT := choose_eq_of_fits (c + 1) (m + 1) (by omega) hn32 hfit
  refine ⟨_, s1, choose m c, choose m (c + 1), hinit,
    htab.retrieve_valid m c (by omega) (by omega),
    htab.retrieve_valid m (c + 1) (by omega) (by omega), ?_⟩
  rw [htab.retrieve_valid (m + 1) (c + 1) (by omega) hn, hT, hA, hB, ← hpas,
    Nat.mod_eq_of_lt hC]

theorem entry_pascal_of_fits_witness :
    62 + 1 ≤ INT_MAX ∧ 0 < 31 ∧ 31 < 62 ∧ 62 ≤ 62 ∧ 31 * Nat.choose 62 31 < ULONG_MOD ∧
    ∃ nCk s1 a b, init_nCk 62 State.initial = some (nCk, s1) ∧
      retrieve_nCk nCk (62 - 1) (31 - 1) s1 = some (a, s1) ∧
      retrieve_nCk nCk (62 - 1) 31 s1 = some (b, s1) ∧
      retrieve_nCk nCk 62 31 s1 = some ((a + b) % ULONG_MOD, s1) :=
  ⟨by decide, by decide, by decide, by decide, by decide,
    entry_pascal_of_fits 62 State.initial 62 31 (by decide) (by decide) (by decide)
      (by decide) (by decide)⟩


/-- C9: boundary values.  `choose(i, 0) = 1` for every `i`; for every maximum
order `N` (`N + 1 ≤ INT_MAX`) and every row `i ≤ N` the table built by
`init_nCk(N)` has `entry(i, 0) = 1`; and for every `n` in `[0, 20]` the table
built by `init_nCk(20)` has `entry(n, 0) = 1` and `entry(n, n) = 1`. -/
theorem entry_boundary (N : Nat) (s : State) (i n : Nat) (hN : N + 1 ≤ INT_MAX)
    (hi : i ≤ N) (hn : n ≤ 20) :
    choose i 0 = 1 ∧
    (∃ nCk s1, init_nCk N s = some (nCk, s1) ∧ retrieve_nCk nCk i 0 s1 = some (1, s1)) ∧
    (∃ nCk s1, init_nCk 20 s = some (nCk, s1) ∧ retrieve_nCk nCk n 0 s1 = some (1, s1) ∧
      retrieve_nCk nCk n n s1 = some (1, s1)) := by
  refine ⟨rfl, ?_, ?_⟩
  · obtain ⟨s1, hinit, htab, -⟩ := init_nCk_spec N (by omega) s
    exact ⟨_, s1, hinit, htab.retrieve_valid i 0 (by omega) hi⟩
  · obtain ⟨s1, hinit, htab, -⟩ := init_nCk_spec 20 (by decide) s
    have hn32 : n < UINT_MOD := by simp only [UINT_MOD]; omega
    have hnn : choose n n = 1 := by
      rw [choose_eq_of_fits n n (by omega) hn32 (fits_of_le_20 n n (by omega) hn),
        Nat.choose_self]
    refine ⟨_, s1, hinit, htab.retrieve_valid n 0 (by omega) hn, ?_⟩
    rw [htab.retrieve_valid n n (by omega) hn, hnn]

theorem entry_boundary_witness :
    40 + 1 ≤ INT_MAX ∧ 33 ≤ 40 ∧ 20 ≤ 20 ∧
    choose 33 0 = 1 ∧
    (∃ nCk s1, init_nCk 40 State.initial = some (nCk, s1) ∧
      retrieve_nCk nCk 33 0 s1 = some (1, s1)) ∧
    (∃ nCk s1, init_nCk 20 State.initial = some (nCk, s1) ∧
      retrieve_nCk nCk 20 0 s1 = some (1, s1) ∧ retrieve_nCk nCk 20 20 s1 = some (1, s1)) :=
  ⟨by decide, by decide, by decide,
    entry_boundary 40 State.initial 33 20 (by decide) (by decide) (by decide)⟩

/-- C10, as stated, fails: on the table built with maximum order `5`, the
lookup `(5, 8)` meets the stated precondition (`5 ≤ 5`), yet row `5` has `6`
cells, column `8` is outside it, and the read is undefined. -/
theorem lookup_5_8_outside_row :
    ∃ nCk s1, init_nCk 5 State.initial = some (nCk, s1) ∧ 5 ≤ 5 ∧
      ∃ r cs, load nCk 5 s1 = some r ∧ cells s1 r = some cs ∧ cs.length = 6 ∧
        cs[8]? = none ∧ retrieve_nCk nCk 5 8 s1 = none := by
  obtain ⟨s1, hinit, htab, -⟩ := init_nCk_spec 5 (by decide) State.initial
  have hrow := htab.load_row 5 (by omega)
  have hout := htab.retrieve_outside 5 8 (by omega) (by omega)
  obtain ⟨ps, -, -, hrows⟩ := htab
  exact ⟨_, s1, hinit, by omega, _, row 5 5, hrow, (hrows 5 (by omega)).2, by decide,
    by decide, hout⟩

/-- C10, amended: on a table built with maximum order `N` (`N + 1 ≤ INT_MAX`),
for every `n ≤ N` and every `k ≤ N`, including `k > n`, `retrieve_nCk` reads a
cell the builder stored: row index `n` is inside the row collection, column
index `k` is inside row `n`, the cell has been written, and the lookup returns
its value. -/
theorem lookup_inside_table (N : Nat) (s : State) (n k : Nat) (hN : N + 1 ≤ INT_MAX)
    (hn : n ≤ N) (hk : k ≤ N) :
    ∃ nCk s1, init_nCk N s = some (nCk, s1) ∧
      ∃ ps r cs v, cells s1 nCk = some ps ∧ n < ps.length ∧ ps[n]? = some (some r) ∧
        cells s1 r = some cs ∧ k < cs.length ∧ cs[k]? = some (some v) ∧
        ∃ s2, retrieve_nCk nCk n k s1 = some (v, s2) := by
  obtain ⟨s1, hinit, htab, -⟩ := init_nCk_spec N (by omega) s
  have hret := htab.retrieve n k hn hk
  obtain ⟨ps, hc, hlen, hrows⟩ := htab
  refine ⟨_, s1, hinit, ps, _, row N n, choose n k, hc, by omega, (hrows n hn).1,
    (hrows n hn).2, by simp [row]; omega, ?_, _, hret⟩
  simp [row, List.getElem?_range (show k < N + 1 by omega)]

theorem lookup_inside_table_witness :
    8 + 1 ≤ INT_MAX ∧ 5 ≤ 8 ∧ 8 ≤ 8 ∧
    ∃ nCk s1, init_nCk 8 State.initial = some (nCk, s1) ∧
      ∃ ps r cs v, cells s1 nCk = some ps ∧ 5 < ps.length ∧ ps[5]? = some (some r) ∧
        cells s1 r = some cs ∧ 8 < cs.length ∧ cs[8]? = some (some v) ∧
        ∃ s2, retrieve_nCk nCk 5 8 s1 = some (v, s2) :=
  ⟨by decide, by decide, by decide,
    lookup_inside_table 8 State.initial 5 8 (by decide) (by decide) (by decide)⟩


/-! ## Further claims -/

/-- C11: on the table built by `init_nCk(10)`, `retrieve_nCk(nCk, 10, 5)`
returns `252`, `retrieve_nCk(nCk, 10, 0)` returns `1` and
`retrieve_nCk(nCk, 10, 10)` returns `1`, each leaving the state as it found it
(no diagnostic). -/
theorem table10_scenario (s : State) :
    ∃ nCk s1, init_nCk 10 s = some (nCk, s1) ∧
      retrieve_nCk nCk 10 5 s1 = some (252, s1) ∧
      retrieve_nCk nCk 10 0 s1 = some (1, s1) ∧
      retrieve_nCk nCk 10 10 s1 = some (1, s1) := by
  obtain ⟨s1, hinit, htab, -⟩ := init_nCk_spec 10 (by decide) s
  have h5 : choose 10 5 = 252 := by decide
  have h0 : choose 10 0 = 1 := by decide
  have h10 : choose 10 10 = 1 := by decide
  refine ⟨_, s1, hinit, ?_, ?_, ?_⟩
  · rw [htab.retrieve_valid 10 5 (by omega) (by omega), h5]
  · rw [htab.retrieve_valid 10 0 (by omega) (by omega), h0]
  · rw [htab.retrieve_valid 10 10 (by omega) (by omega), h10]

/-! ### Termination of `choose` -/

theorem pred_lt_uint (n : Nat) : (n + (UINT_MOD - 1)) % UINT_MOD < UINT_MOD :=
  Nat.mod_lt _ (by decide)

theorem choose_bounded_enough :
    ∀ (k n : Nat), k < UINT_MOD → choose_bounded (k + 1) n k = some (choose n k) := by
  intro k
  induction k with
  | zero => intro n _; simp [choose_bounded, choose]
  | succ k ih =>
    intro n hk
    have hpred : (k + 1 + (UINT_MOD - 1)) % UINT_MOD = k := by
      rw [pred_wrap (k + 1) (by omega) hk, Nat.add_sub_cancel]
    have hrec := ih ((n + (UINT_MOD - 1)) % UINT_MOD) (by omega)
    rw [choose_bounded, if_neg (Nat.succ_ne_zero k), hpred, hrec, choose_succ]

theorem choose_bounded_short :
    ∀ (d k n : Nat), k < UINT_MOD → d ≤ k → choose_bounded d n k = none := by
  intro d
  induction d with
  | zero => intro k n _ _; rfl
  | succ d ih =>
    intro k n hk hd
    obtain ⟨c, rfl⟩ : ∃ c, k = c + 1 := ⟨k - 1, by omega⟩
    have hpred : (c + 1 + (UINT_MOD - 1)) % UINT_MOD = c := by
      rw [pred_wrap (c + 1) (by omega) hk, Nat.add_sub_cancel]
    have hrec := ih c ((n + (UINT_MOD - 1)) % UINT_MOD) (by omega) (by omega)
    rw [choose_bounded, if_neg (Nat.succ_ne_zero c), hpred, hrec]

theorem choose_lt_ulong (n k : Nat) : choose n k < ULONG_MOD := by
  cases k with
  | zero => simp [choose, ULONG_MOD]
  | succ k =>
    rw [choose_succ]
    exact lt_of_le_of_lt (Nat.div_le_self _ _) (Nat.mod_lt _ (by decide))

/-- C14: `choose` is total.  For every `n` (every 32-bit unsigned one in
particular) and every 32-bit unsigned `k`, whether or not `k ≤ n`, the recursion of the source run with `k + 1` nested
calls (the outermost one and exactly `k` recursive ones) reaches the base case
and returns the value `choose(n, k)`, a 64-bit value; with `k` calls or fewer
it does not reach the base case. -/
theorem choose_total (n k : Nat) (hk : k < UINT_MOD) :
    choose_bounded (k + 1) n k = some (choose n k) ∧
    (∀ d, d ≤ k → choose_bounded d n k = none) ∧
    choose n k < ULONG_MOD :=
  ⟨choose_bounded_enough k n hk, fun d hd => choose_bounded_short d k n hk hd,
    choose_lt_ulong n k⟩

theorem choose_total_witness :
    8 < UINT_MOD ∧
    choose_bounded (8 + 1) 3 8 = some (choose 3 8) ∧
    (∀ d, d ≤ 8 → choose_bounded d 3 8 = none) ∧
    choose 3 8 < ULONG_MOD :=
  ⟨by decide, choose_total 3 8 (by decide)⟩

/-! ### Outside the triangle -/

theorem choose_eq_zero_of_lt :
    ∀ (k n : Nat), n < k → n < UINT_MOD → choose n k = 0 := by
  intro k
  induction k with
  | zero => intro n h _; omega
  | succ k ih =>
    intro n hlt hn
    rw [choose_succ]
    cases n with
    | zero => simp
    | succ m =>
      rw [pred_wrap (m + 1) (by omega) hn, Nat.add_sub_cancel, ih m (by omega) (by omega)]
      simp

/-- C15: for every 32-bit unsigned `n` and every `k > n` (every 32-bit one in
particular), `choose(n, k) = 0`; so in every table built by `init_nCk(N)`
(`N + 1 ≤ INT_MAX`) every cell `(i, j)` with `i < j ≤ N` holds `0`, and the
lookup `retrieve_nCk(nCk, i, j)` returns `0` while appending its diagnostic
line to the error channel. -/
theorem choose_outside_triangle (n k N i j : Nat) (s : State) (hn : n < UINT_MOD)
    (hnk : n < k) (hN : N + 1 ≤ INT_MAX) (hij : i < j) (hj : j ≤ N) :
    choose n k = 0 ∧
    ∃ nCk s1, init_nCk N s = some (nCk, s1) ∧
      ∃ r, load nCk i s1 = some r ∧ load r j s1 = some 0 ∧
        retrieve_nCk nCk i j s1 =
          some (0, { s1 with err := s1.err ++
            ("Invalid k = " ++ Nat.repr j ++ "; enter k so that k <= n\n") }) := by
  refine ⟨choose_eq_zero_of_lt k n hnk hn, ?_⟩
  obtain ⟨s1, hinit, htab, -⟩ := init_nCk_spec N (by omega) s
  have hz : choose i j = 0 :=
    choose_eq_zero_of_lt j i hij (lt_uint_of_le N i hN (by omega))
  have hw : warn i j s1 = { s1 with err := s1.err ++
      ("Invalid k = " ++ Nat.repr j ++ "; enter k so that k <= n\n") } := by
    simp [warn, hij, diagnostic]
  refine ⟨_, s1, hinit, _, htab.load_row i (by omega), ?_, ?_⟩
  · rw [htab.load_cell i j (by omega) hj, hz]
  · rw [htab.retrieve i j (by omega) hj, hz, hw]

theorem choose_outside_triangle_witness :
    0 < UINT_MOD ∧ 0 < 4294967295 ∧ 8 + 1 ≤ INT_MAX ∧ 5 < 8 ∧ 8 ≤ 8 ∧
    choose 0 4294967295 = 0 ∧
    ∃ nCk s1, init_nCk 8 State.initial = some (nCk, s1) ∧
      ∃ r, load nCk 5 s1 = some r ∧ load r 8 s1 = some 0 ∧
        retrieve_nCk nCk 5 8 s1 =
          some (0, { s1 with err := s1.err ++
            ("Invalid k = " ++ Nat.repr 8 ++ "; enter k so that k <= n\n") }) :=
  ⟨by decide, by decide, by decide, by decide, by decide,
    choose_outside_triangle 0 4294967295 8 5 8 State.initial (by decide) (by decide)
      (by decide) (by decide) (by decide)⟩

/-! ### The no-overflow condition -/

theorem choose_products_succ (n k : Nat) :
    choose_products n (k + 1) =
      n * choose ((n + (UINT_MOD - 1)) % UINT_MOD) k ::
        choose_products ((n + (UINT_MOD - 1)) % UINT_MOD) k := rfl

theorem choose_products_length : ∀ (k n : Nat), (choose_products n k).length = k := by
  intro k
  induction k with
  | zero => intro n; rfl
  | succ k ih => intro n; rw [choose_products_succ, List.length_cons, ih]

theorem choose_products_lt_of_fits :
    ∀ (k n : Nat), k ≤ n → n < UINT_MOD → k * Nat.choose n k < ULONG_MOD →
      ∀ p, p ∈ choose_products n k → p < ULONG_MOD := by
  intro k
  induction k with
  | zero => intro n _ _ _ p hp; simp [choose_products] at hp
  | succ k ih =>
    intro n hkn hn hfit p hp
    obtain ⟨m, rfl⟩ : ∃ m, n = m + 1 := ⟨n - 1, by omega⟩
    have hkey : (m + 1) * Nat.choose m k = Nat.choose (m + 1) (k + 1) * (k + 1) :=
      Nat.succ_mul_choose_eq m k
    have hprod : (m + 1) * Nat.choose m k < ULONG_MOD := by
      rw [hkey, Nat.mul_comm]; exact hfit
    have hle : k * Nat.choose m k ≤ (m + 1) * Nat.choose m k :=
      Nat.mul_le_mul_right _ (by omega)
    have hfit1 : k * Nat.choose m k < ULONG_MOD := lt_of_le_of_lt hle hprod
    rw [choose_products_succ, pred_wrap (m + 1) (by omega) hn, Nat.add_sub_cancel,
      List.mem_cons] at hp
    rcases hp with rfl | hp
    · rw [choose_eq_of_fits k m (by omega) (by omega) hfit1]
      exact hprod
    · exact ih m (by omega) (by omega) hfit1 p hp

/-- C16: the no-overflow condition.  For every 32-bit `n` and every `k` with
`1 ≤ k ≤ n` and `n * C(n-1, k-1) < 2^64`, a product equal to `k * C(n, k)`:
the recursion of `choose(n, k)` forms `k` products, each of them below `2^64`
(no multiplication wraps), and `choose(n, k)` is the exact binomial
coefficient `C(n, k)`. -/
theorem choose_exact_of_no_overflow (n k : Nat) (hn : n < UINT_MOD) (hk : 1 ≤ k)
    (hkn : k ≤ n) (hfit : n * Nat.choose (n - 1) (k - 1) < ULONG_MOD) :
    n * Nat.choose (n - 1) (k - 1) = k * Nat.choose n k ∧
    (choose_products n k).length = k ∧
    (∀ p, p ∈ choose_products n k → p < ULONG_MOD) ∧
    choose n k = Nat.choose n k := by
  obtain ⟨m, rfl⟩ : ∃ m, n = m + 1 := ⟨n - 1, by omega⟩
  obtain ⟨c, rfl⟩ : ∃ c, k = c + 1 := ⟨k - 1, by omega⟩
  simp only [Nat.add_sub_cancel] at hfit ⊢
  have hkey : (m + 1) * Nat.choose m c = (c + 1) * Nat.choose (m + 1) (c + 1) := by
    rw [Nat.mul_comm (c + 1)]; exact Nat.succ_mul_choose_eq m c
  have hfit1 : (c + 1) * Nat.choose (m + 1) (c + 1) < ULONG_MOD := by
    rw [← hkey]; exact hfit
  exact ⟨hkey, choose_products_length (c + 1) (m + 1),
    choose_products_lt_of_fits (c + 1) (m + 1) hkn hn hfit1,
    choose_eq_of_fits (c + 1) (m + 1) hkn hn hfit1⟩

theorem choose_exact_of_no_overflow_witness :
    62 < UINT_MOD ∧ 1 ≤ 31 ∧ 31 ≤ 62 ∧ 62 * Nat.choose (62 - 1) (31 - 1) < ULONG_MOD ∧
    (62 * Nat.choose (62 - 1) (31 - 1) = 31 * Nat.choose 62 31 ∧
    (choose_products 62 31).length = 31 ∧
    (∀ p, p ∈ choose_products 62 31 → p < ULONG_MOD) ∧
    choose 62 31 = Nat.choose 62 31) :=
  ⟨by decide, by decide, by decide, by decide,
    choose_exact_of_no_overflow 62 31 (by decide) (by decide) (by decide) (by decide)⟩

/-! ### The largest exact order -/

theorem fits_of_le_62 (i j : Nat) (hj : j ≤ i) (hi : i ≤ 62) :
    j * Nat.choose i j < ULONG_MOD := by
  cases j with
  | zero => simp [ULONG_MOD]
  | succ c =>
    obtain ⟨m, rfl⟩ : ∃ m, i = m + 1 := ⟨i - 1, by omega⟩
    have hkey : (m + 1) * Nat.choose m c = Nat.choose (m + 1) (c + 1) * (c + 1) :=
      Nat.succ_mul_choose_eq m c
    have h1 : Nat.choose m c ≤ Nat.choose 61 c := Nat.choose_le_choose c (by omega)
    have h2 : Nat.choose 61 c ≤ Nat.choose 61 (61 / 2) := Nat.choose_le_middle c 61
    have h3 : (m + 1) * Nat.choose m c ≤ 62 * Nat.choose 61 (61 / 2) :=
      Nat.mul_le_mul (by omega) (le_trans h1 h2)
    have h4 : 62 * Nat.choose 61 (61 / 2) < ULONG_MOD := by decide
    rw [Nat.mul_comm, ← hkey]
    exact lt_of_le_of_lt h3 h4

/-- C17: `62` is the largest maximum order whose table is exact throughout its
triangle.  For every `N ≤ 62`, every entry `(i, j)` with `0 ≤ j ≤ i ≤ N` of the
table built by `init_nCk(N)` is the exact binomial coefficient `C(i, j)`; the
table built by `init_nCk(63)` has an entry inside the triangle, `(63, 29)`,
that is not: it holds `123415381704736506` where `C(63, 29)` is
`759510004936100355`. -/
theorem exact_up_to_62 (N i j : Nat) (s : State) (hN : N ≤ 62) (hj : j ≤ i) (hi : i ≤ N) :
    (∃ nCk s1, init_nCk N s = some (nCk, s1) ∧
      retrieve_nCk nCk i j s1 = some (Nat.choose i j, s1)) ∧
    (∃ nCk s1, init_nCk 63 s = some (nCk, s1) ∧ 29 ≤ 63 ∧
      retrieve_nCk nCk 63 29 s1 = some (123415381704736506, s1) ∧
      Nat.choose 63 29 = 759510004936100355 ∧ 123415381704736506 ≠ Nat.choose 63 29) := by
  constructor
  · obtain ⟨s1, hinit, htab, -⟩ := init_nCk_spec N (by simp only [INT_MAX]; omega) s
    have hi32 : i < UINT_MOD := by simp only [UINT_MOD]; omega
    refine ⟨_, s1, hinit, ?_⟩
    rw [htab.retrieve_valid i j hj hi,
      choose_eq_of_fits j i hj hi32 (fits_of_le_62 i j hj (by omega))]
  · obtain ⟨s1, hinit, htab, -⟩ := init_nCk_spec 63 (by decide) s
    have hv : choose 63 29 = 123415381704736506 := by decide
    refine ⟨_, s1, hinit, by omega, ?_, by decide, by decide⟩
    rw [htab.retrieve_valid 63 29 (by omega) (by omega), hv]

theorem exact_up_to_62_witness :
    62 ≤ 62 ∧ 31 ≤ 62 ∧ 62 ≤ 62 ∧
    (∃ nCk s1, init_nCk 62 State.initial = some (nCk, s1) ∧
      retrieve_nCk nCk 62 31 s1 = some (Nat.choose 62 31, s1)) ∧
    (∃ nCk s1, init_nCk 63 State.initial = some (nCk, s1) ∧ 29 ≤ 63 ∧
      retrieve_nCk nCk 63 29 s1 = some (123415381704736506, s1) ∧
      Nat.choose 63 29 = 759510004936100355 ∧ 123415381704736506 ≠ Nat.choose 63 29) :=
  ⟨by decide, by decide, by decide,
    exact_up_to_62 62 62 31 State.initial (by decide) (by decide) (by decide)⟩

/-! ### Releasing a table -/

theorem cells_of_heap_eq (s t : State) (q : Nat) (h : t.heap = s.heap) :
    cells t q = cells s q := by
  cases q with
  | zero => rfl
  | succ b => simp [cells, h]

theorem free_eq_some (p : Nat) (s : State) (cs : List (Option Nat))
    (hc : cells s p = some cs) :
    free p s = some { s with heap := s.heap.set (p - 1) none, freed := s.freed ++ [p] } := by
  simp [free, hc, cells_ne_zero s p cs hc]

theorem cells_free_same (p : Nat) (s : State) (F : List Nat) (hp : p ≠ 0) :
    cells { s with heap := s.heap.set (p - 1) none, freed := F } p = none := by
  cases p with
  | zero => exact absurd rfl hp
  | succ b =>
    by_cases hb : b < s.heap.length
    · simp [cells, List.getElem?_set, hb]
    · have : (s.heap.set b none)[b]? = none :=
        List.getElem?_eq_none (by simp; omega)
      simp [cells, this]

theorem cells_free_other (p q : Nat) (s : State) (F : List Nat) (hp : p ≠ 0) (hq : q ≠ p) :
    cells { s with heap := s.heap.set (p - 1) none, freed := F } q = cells s q := by
  rw [← cells_set_other s p q none hp hq]
  exact cells_of_heap_eq _ _ q rfl

theorem free_rows_spec (n nCk : Nat) (hn : n < INT_MAX) :
    ∀ (fuel i : Nat) (s : State) (ps : List (Option Nat)),
      cells s nCk = some ps →
      (∀ t, i ≤ t → t ≤ n → ps[t]? = some (some (nCk + 1 + t)) ∧
        ∃ cs, cells s (nCk + 1 + t) = some cs) →
      i ≤ n + 1 → n + 2 ≤ fuel + i →
      ∃ s1, free_rows n nCk fuel i s = some s1 ∧
        s1.freed = s.freed ++ (List.range' i (n + 1 - i)).map (fun t => nCk + 1 + t) ∧
        (∀ t, i ≤ t → t ≤ n → cells s1 (nCk + 1 + t) = none) ∧
        (∀ q, (q ≤ nCk + i ∨ nCk + 1 + n < q) → cells s1 q = cells s q) ∧
        s1.heap.length = s.heap.length ∧ s1.out = s.out ∧ s1.err = s.err := by
  intro fuel
  induction fuel with
  | zero => intro i s ps _ _ hi hf; omega
  | succ fuel ih =>
    intro i s ps hc hrows hi hf
    by_cases hin : i ≤ n
    · have hne : i ≠ INT_MAX := by omega
      obtain ⟨hpi, cs, hci⟩ := hrows i (le_refl i) hin
      have hload : load nCk i s = some (nCk + 1 + i) := by simp [load, hc, hpi]
      have hp0 : nCk + 1 + i ≠ 0 := by omega
      have hfree := free_eq_some (nCk + 1 + i) s cs hci
      obtain ⟨s1, hrun, hF, hgone, hkeep, hL, hO, hE⟩ :=
        ih (i + 1)
          { s with heap := s.heap.set (nCk + 1 + i - 1) none,
                   freed := s.freed ++ [nCk + 1 + i] } ps
          (by rw [cells_free_other (nCk + 1 + i) nCk s _ hp0 (by omega)]; exact hc)
          (by
            intro t h1 h2
            refine ⟨(hrows t (by omega) h2).1, ?_⟩
            rw [cells_free_other (nCk + 1 + i) (nCk + 1 + t) s _ hp0 (by omega)]
            exact (hrows t (by omega) h2).2)
          (by omega) (by omega)
      refine ⟨s1, ?_, ?_, ?_, ?_, ?_, hO, hE⟩
      · simp only [free_rows, hin, if_true, hload, hfree, hne, if_false]
        exact hrun
      · have hr : List.range' i (n + 1 - i) = i :: List.range' (i + 1) (n + 1 - (i + 1)) := by
          have e : n + 1 - i = (n + 1 - (i + 1)) + 1 := by omega
          rw [e, List.range'_succ]
        rw [hF, hr]
        simp
      · intro t h1 h2
        by_cases hEq : t = i
        · subst hEq
          rw [hkeep _ (Or.inl (by omega))]
          exact cells_free_same _ s _ hp0
        · exact hgone t (by omega) h2
      · intro q hq
        rw [hkeep q (by omega), cells_free_other (nCk + 1 + i) q s _ hp0 (by omega)]
      · simpa using hL
    · have hEq : i = n + 1 := by omega
      refine ⟨s, ?_, ?_, ?_, fun _ _ => rfl, rfl, rfl, rfl⟩
      · simp [free_rows, hin]
      · simp [hEq]
      · intro t h1 h2; omega

theorem IsTable.destroy {N nCk : Nat} {s : State} (h : IsTable N nCk s) (hN : N < INT_MAX) :
    ∃ s2, destroy_nCk nCk N s = some (0, s2) ∧
      s2.freed = s.freed ++ (List.range (N + 1)).map (fun t => nCk + 1 + t) ++ [nCk] ∧
      (∀ q, nCk ≤ q → q ≤ nCk + 1 + N → cells s2 q = none) ∧
      (∀ q, (q < nCk ∨ nCk + 1 + N < q) → cells s2 q = cells s q) ∧
      s2.heap.length = s.heap.length ∧ s2.out = s.out ∧ s2.err = s.err := by
  obtain ⟨ps, hc, -, hrows⟩ := h
  have hp0 := cells_ne_zero s nCk ps hc
  obtain ⟨s1, hrun, hF, hgone, hkeep, hL, hO, hE⟩ :=
    free_rows_spec N nCk hN (N + 2) 0 s ps hc
      (fun t _ ht => ⟨(hrows t ht).1, _, (hrows t ht).2⟩) (by omega) (by omega)
  have hc1 : cells s1 nCk = some ps := by rw [hkeep nCk (Or.inl (by omega))]; exact hc
  have hfree := free_eq_some nCk s1 ps hc1
  refine ⟨{ s1 with heap := s1.heap.set (nCk - 1) none, freed := s1.freed ++ [nCk] },
    ?_, ?_, ?_, ?_, ?_, hO, hE⟩
  · simp only [destroy_nCk, hp0, if_false, hrun, hfree]
  · simp [hF, List.range_eq_range']
  · intro q h1 h2
    by_cases hEq : q = nCk
    · subst hEq
      exact cells_free_same _ s1 _ hp0
    · rw [cells_free_other nCk q s1 _ hp0 hEq]
      have e : q = nCk + 1 + (q - nCk - 1) := by omega
      rw [e]
      exact hgone _ (by omega) (by omega)
  · intro q hq
    rw [cells_free_other nCk q s1 _ hp0 (by omega), hkeep q (by omega)]
  · simpa using hL


theorem cells_none_of_gt (s : State) (q : Nat) (hq : s.heap.length < q) : cells s q = none := by
  cases hc : cells s q with
  | none => rfl
  | some cs =>
    have := cells_le_length s q cs hc
    omega

theorem released_perm (a N : Nat) :
    List.Perm ((List.range (N + 1)).map (fun i => a + 1 + i) ++ [a]) (List.range' a (N + 2)) := by
  have h1 : (List.range (N + 1)).map (fun i => a + 1 + i) = List.range' (a + 1) (N + 1) := by
    rw [List.range'_eq_map_range]
  have h2 : List.range' a (N + 2) = a :: List.range' (a + 1) (N + 1) := by
    rw [List.range'_succ]
  rw [h1, h2]
  exact List.perm_append_singleton a _

theorem free_rows_fuel (n nCk extra : Nat) :
    ∀ (fuel i : Nat) (s : State), i ≤ n + 1 → n + 2 ≤ fuel + i →
      free_rows n nCk (fuel + extra) i s = free_rows n nCk fuel i s := by
  intro fuel
  induction fuel with
  | zero => intro i s hi hf; omega
  | succ fuel ih =>
    intro i s hi hf
    have e : fuel + 1 + extra = (fuel + extra) + 1 := by omega
    rw [e]
    by_cases hin : i ≤ n
    · simp only [free_rows, hin, if_true]
      cases load nCk i s with
      | none => rfl
      | some r =>
        dsimp only
        cases free r s with
        | none => rfl
        | some s1 =>
          dsimp only
          by_cases hEq : i = INT_MAX
          · simp [hEq]
          · simp only [hEq, if_false]
            exact ih (i + 1) s1 (by omega) (by omega)
    · simp [free_rows, hin]

/-- C12: for every input, `destroy_nCk` either has undefined behaviour or
returns `0` (its loop over the rows is never cut short: more loop tests than the
`n + 2` it is given change nothing); on the null pointer, for every `n`, it is
defined, returns `0`, and leaves the state (heap and record of releases
included) as it found it. -/
theorem destroy_nCk_returns_zero (nCk n : Nat) (s : State) :
    destroy_nCk 0 n s = some (0, s) ∧
    (destroy_nCk nCk n s = none ∨ ∃ s2, destroy_nCk nCk n s = some (0, s2)) ∧
    ∀ extra, free_rows n nCk (n + 2 + extra) 0 s = free_rows n nCk (n + 2) 0 s := by
  refine ⟨by simp [destroy_nCk], ?_,
    fun extra => free_rows_fuel n nCk extra (n + 2) 0 s (by omega) (by omega)⟩
  unfold destroy_nCk
  by_cases h0 : nCk = 0
  · exact Or.inr ⟨s, by simp [h0]⟩
  · simp only [h0, if_false]
    cases h1 : free_rows n nCk (n + 2) 0 s with
    | none => exact Or.inl rfl
    | some s1 =>
      cases h2 : free nCk s1 with
      | none => exact Or.inl (by simp [h2])
      | some s2 => exact Or.inr ⟨s2, by simp [h2]⟩

/-- C13: for every maximum order `N` (`N + 1 ≤ INT_MAX`),
`destroy_nCk(init_nCk(N), N)` is defined and returns `0`.  `init_nCk(N)`
allocates the `N + 2` blocks `nCk`, `nCk + 1`, ..., `nCk + N + 1`, block
`nCk + 1 + i` being row `i`; the releases `destroy_nCk` adds to the record are
row `0` up to row `N` in this order, each once, then `nCk` last: a
rearrangement of the allocated blocks.  Afterwards no block allocated by
`init_nCk` is live and the blocks that existed before are as they were. -/
theorem destroy_nCk_balances (N : Nat) (s : State) (hN : N + 1 ≤ INT_MAX) :
    ∃ nCk s1 s2 ps, init_nCk N s = some (nCk, s1) ∧
      destroy_nCk nCk N s1 = some (0, s2) ∧
      nCk = s.heap.length + 1 ∧ s1.heap.length = s.heap.length + (N + 2) ∧
      s1.freed = s.freed ∧
      cells s1 nCk = some ps ∧ (∀ i, i ≤ N → ps[i]? = some (some (nCk + 1 + i))) ∧
      s2.freed = s1.freed ++ (List.range (N + 1)).map (fun i => nCk + 1 + i) ++ [nCk] ∧
      s2.freed.length = s1.freed.length + (N + 2) ∧
      List.Perm ((List.range (N + 1)).map (fun i => nCk + 1 + i) ++ [nCk])
        (List.range' (s.heap.length + 1) (N + 2)) ∧
      s2.heap.length = s1.heap.length ∧
      (∀ q, s.heap.length < q → cells s2 q = none) ∧
      (∀ q, q ≤ s.heap.length → cells s2 q = cells s q) := by
  obtain ⟨s1, hinit, htab, hold, hL, hF, -, -⟩ := init_nCk_spec N (by omega) s
  obtain ⟨s2, hrun, hF2, hgone, hkeep, hL2, -, -⟩ := htab.destroy (by omega)
  obtain ⟨ps, hc, -, hrows⟩ := htab
  refine ⟨_, s1, s2, ps, hinit, hrun, rfl, hL, hF, hc, fun i hi => (hrows i hi).1, hF2,
    by simp [hF2], released_perm _ N, hL2, ?_, ?_⟩
  · intro q hq
    by_cases h2 : q ≤ s.heap.length + 1 + 1 + N
    · exact hgone q (by omega) h2
    · rw [hkeep q (Or.inr (by omega))]
      exact cells_none_of_gt s1 q (by omega)
  · intro q hq
    rw [hkeep q (Or.inl (by omega)), hold q hq]

theorem destroy_nCk_balances_witness :
    20 + 1 ≤ INT_MAX ∧
    ∃ nCk s1 s2 ps, init_nCk 20 State.initial = some (nCk, s1) ∧
      destroy_nCk nCk 20 s1 = some (0, s2) ∧
      nCk = State.initial.heap.length + 1 ∧
      s1.heap.length = State.initial.heap.length + (20 + 2) ∧
      s1.freed = State.initial.freed ∧
      cells s1 nCk = some ps ∧ (∀ i, i ≤ 20 → ps[i]? = some (some (nCk + 1 + i))) ∧
      s2.freed = s1.freed ++ (List.range (20 + 1)).map (fun i => nCk + 1 + i) ++ [nCk] ∧
      s2.freed.length = s1.freed.length + (20 + 2) ∧
      List.Perm ((List.range (20 + 1)).map (fun i => nCk + 1 + i) ++ [nCk])
        (List.range' (State.initial.heap.length + 1) (20 + 2)) ∧
      s2.heap.length = s1.heap.length ∧
      (∀ q, State.initial.heap.length < q → cells s2 q = none) ∧
      (∀ q, q ≤ State.initial.heap.length → cells s2 q = cells State.initial q) :=
  ⟨by decide, destroy_nCk_balances 20 State.initial (by decide)⟩

end Nchoosek
